import Mathlib

/-!
Shallow embedding of the pyoozie library (pyoozie/workflow.py and
pyoozie/errors.py).

XML element trees built with lxml.etree are modelled by the inductive `Xml`:
a tag, the attributes in insertion order, an optional text, and the child
elements in insertion order.  The Python code builds trees imperatively with
`etree.SubElement(parent, tag)` followed by in-place mutation of the fresh
child; here a child is built fully and then appended (`Xml.appendChild`),
which produces the same final tree.  Python dicts iterated with `iteritems`
are modelled as ordered association lists.  Node objects, which
`Workflow._collect_all_nodes` compares by object identity, are modelled by
natural-number identities with an explicit child function `g : Nat → List Nat`
standing for `get_child_nodes`.
-/

/-- Model of an `lxml.etree` element: tag, attributes (insertion order),
optional text, children (insertion order). -/
inductive Xml where
  | elem : String → List (String × String) → Option String → List Xml → Xml

/-- Tag of an element. -/
def Xml.tag : Xml → String
  | .elem t _ _ _ => t

/-- Attribute list of an element. -/
def Xml.attrs : Xml → List (String × String)
  | .elem _ a _ _ => a

/-- Text of an element (`None` in lxml is `none`). -/
def Xml.text : Xml → Option String
  | .elem _ _ tx _ => tx

/-- Children of an element. -/
def Xml.children : Xml → List Xml
  | .elem _ _ _ cs => cs

/-- Models `etree.SubElement(parent, tag)`: the new child is appended at the
end of the parent's child list. -/
def Xml.appendChild : Xml → Xml → Xml
  | .elem t a tx cs, c => .elem t a tx (cs ++ [c])

/-- Models a Python loop that calls `etree.SubElement(parent, ...)` once per
element of a list (each child built by `f`). -/
def appendEach (parent : Xml) (f : α → Xml) (xs : List α) : Xml :=
  xs.foldl (fun p a => p.appendChild (f a)) parent

/-- Models `etree.SubElement(parent, tag).text = text`: a fresh child with no
attributes whose text is set. -/
def subElemText (tag text : String) : Xml :=
  Xml.elem tag [] (some text) []

@[simp] theorem Xml.tag_elem (t : String) (a : List (String × String)) (tx : Option String)
    (cs : List Xml) : (Xml.elem t a tx cs).tag = t := rfl

@[simp] theorem Xml.attrs_elem (t : String) (a : List (String × String)) (tx : Option String)
    (cs : List Xml) : (Xml.elem t a tx cs).attrs = a := rfl

@[simp] theorem Xml.text_elem (t : String) (a : List (String × String)) (tx : Option String)
    (cs : List Xml) : (Xml.elem t a tx cs).text = tx := rfl

@[simp] theorem Xml.children_elem (t : String) (a : List (String × String)) (tx : Option String)
    (cs : List Xml) : (Xml.elem t a tx cs).children = cs := rfl

@[simp] theorem Xml.tag_appendChild (x c : Xml) : (x.appendChild c).tag = x.tag := by
  cases x; rfl

@[simp] theorem Xml.attrs_appendChild (x c : Xml) : (x.appendChild c).attrs = x.attrs := by
  cases x; rfl

@[simp] theorem Xml.text_appendChild (x c : Xml) : (x.appendChild c).text = x.text := by
  cases x; rfl

@[simp] theorem Xml.children_appendChild (x c : Xml) :
    (x.appendChild c).children = x.children ++ [c] := by
  cases x; rfl

@[simp] theorem appendEach_nil (parent : Xml) (f : α → Xml) :
    appendEach parent f [] = parent := rfl

theorem appendEach_cons (parent : Xml) (f : α → Xml) (a : α) (xs : List α) :
    appendEach parent f (a :: xs) = appendEach (parent.appendChild (f a)) f xs := rfl

@[simp] theorem tag_appendEach (parent : Xml) (f : α → Xml) (xs : List α) :
    (appendEach parent f xs).tag = parent.tag := by
  induction xs generalizing parent with
  | nil => rfl
  | cons a xs ih => rw [appendEach_cons, ih]; simp

@[simp] theorem attrs_appendEach (parent : Xml) (f : α → Xml) (xs : List α) :
    (appendEach parent f xs).attrs = parent.attrs := by
  induction xs generalizing parent with
  | nil => rfl
  | cons a xs ih => rw [appendEach_cons, ih]; simp

@[simp] theorem text_appendEach (parent : Xml) (f : α → Xml) (xs : List α) :
    (appendEach parent f xs).text = parent.text := by
  induction xs generalizing parent with
  | nil => rfl
  | cons a xs ih => rw [appendEach_cons, ih]; simp

@[simp] theorem children_appendEach (parent : Xml) (f : α → Xml) (xs : List α) :
    (appendEach parent f xs).children = parent.children ++ xs.map f := by
  induction xs generalizing parent with
  | nil => simp
  | cons a xs ih => rw [appendEach_cons, ih]; simp

mutual

/-- Models `etree.tostring` as a deterministic function of the element tree
(the exact byte format of lxml is external to the repository; serialization
is some fixed function of the tree, which is all the determinism contract
uses). -/
def Xml.render : Xml → String
  | .elem t a tx cs =>
      "<" ++ t ++ String.join (a.map (fun p => " " ++ p.1 ++ "=\"" ++ p.2 ++ "\"")) ++ ">"
        ++ (tx.getD "") ++ Xml.renderList cs ++ "</" ++ t ++ ">"

/-- Serialization of a list of sibling elements, in order. -/
def Xml.renderList : List Xml → String
  | [] => ""
  | c :: cs => Xml.render c ++ Xml.renderList cs

end

/-- A transition target as stored on a node field: either a direct reference
to another `Node` object (represented here by the referenced node's `name`,
the only field emission reads from it) or a plain string.  Models the
`isinstance(self.ok, Node)` dichotomy of workflow.py. -/
inductive Target where
  | node : String → Target
  | raw : String → Target

/-- Models `t.name if isinstance(t, Node) else t` from workflow.py. -/
def resolveTarget : Target → String
  | .node n => n
  | .raw s => s

/-- Embeds `errors._format_error`.  The Python truthiness test
`if exception:` is true exactly when `exception` is a non-None, non-empty
string, so the argument is an `Option String` tested for being a non-empty
`some`. -/
def _format_error (description : String) (exception : Option String) : String :=
  match exception with
  | some e => if e ≠ "" then description ++ ": " ++ e else description
  | none => description

/-- Embeds `KillNode.DEFAULT_KILL_MESSAGE` from workflow.py. -/
def DEFAULT_KILL_MESSAGE : String :=
  "Action failed, error message[$\x7bwf:errorMessage(wf:lastErrorNode())\x7d]"

/-- Embeds the `KillNode` data: a name and a kill message. -/
structure KillNode where
  name : String
  message : String

/-- Models `KillNode(name)` constructed without an explicit `message`
argument: the Python default parameter value is `DEFAULT_KILL_MESSAGE`. -/
def KillNode.make (name : String) : KillNode :=
  ⟨name, DEFAULT_KILL_MESSAGE⟩

/-- Embeds `KillNode.to_xml`: a `kill` element carrying the name attribute,
with one `message` sub-element whose text is the message. -/
def KillNode.to_xml (k : KillNode) : Xml :=
  (Xml.elem "kill" [("name", k.name)] none []).appendChild
    (subElemText "message" k.message)

/-- C8: `_format_error` joins the description and the exception as
"description: exception" when the exception is present and non-empty, and
returns the description alone when the exception is absent (None) or
empty. -/
theorem format_error_spec :
    (∀ (d e : String), e ≠ "" → _format_error d (some e) = d ++ ": " ++ e) ∧
    (∀ d : String, _format_error d none = d) ∧
    (∀ d : String, _format_error d (some "") = d) := by
  refine ⟨fun d e he => ?_, fun d => rfl, fun d => rfl⟩
  simp [_format_error, he]

/-- Witness for C8 at concrete inputs. -/
theorem format_error_spec_witness :
    _format_error "desc" (some "exc") = "desc: exc" ∧
    _format_error "desc" none = "desc" ∧
    _format_error "desc" (some "") = "desc" :=
  ⟨format_error_spec.1 "desc" "exc" (by decide), format_error_spec.2.1 "desc",
    format_error_spec.2.2 "desc"⟩

/-- C10: `KillNode.to_xml` yields a `kill` element with the node's name
attribute and exactly one `message` child; a node constructed without an
explicit message argument carries the default kill message as that child's
text. -/
theorem kill_node_to_xml_spec :
    (∀ k : KillNode,
      k.to_xml =
        Xml.elem "kill" [("name", k.name)] none
          [Xml.elem "message" [] (some k.message) []]) ∧
    (∀ n : String,
      (KillNode.make n).to_xml =
        Xml.elem "kill" [("name", n)] none
          [Xml.elem "message" [] (some DEFAULT_KILL_MESSAGE) []]) :=
  ⟨fun _ => rfl, fun _ => rfl⟩

/-- Embeds `ActionNode.to_xml`: an `action` element carrying the name
attribute, to which the `ok` and `error` transition sub-elements are added
first (before any variant payload), each with a `to` attribute resolved by
`resolveTarget`. -/
def ActionNode.to_xml (name : String) (ok error : Target) : Xml :=
  ((Xml.elem "action" [("name", name)] none []).appendChild
      (Xml.elem "ok" [("to", resolveTarget ok)] none [])).appendChild
    (Xml.elem "error" [("to", resolveTarget error)] none [])

/-- Models `os.path.basename` (POSIX): the characters after the last slash. -/
def basename (p : String) : String :=
  String.mk (p.data.foldl (fun acc c => if c = '/' then [] else acc ++ [c]) [])

/-- Models the `prepare` block shared by Pig/Hive/Shell actions: one `delete`
child per delete path, then one `mkdir` child per mkdir path. -/
def prepareElem (delete_paths mkdir_paths : List String) : Xml :=
  appendEach
    (appendEach (Xml.elem "prepare" [] none [])
      (fun p => Xml.elem "delete" [("path", p)] none []) delete_paths)
    (fun p => Xml.elem "mkdir" [("path", p)] none []) mkdir_paths

/-- Models the `configuration` block shared by the Hadoop-backed actions: one
`property` child per entry, holding `name` and `value` sub-elements. -/
def configurationElem (properties : List (String × String)) : Xml :=
  appendEach (Xml.elem "configuration" [] none [])
    (fun kv => Xml.elem "property" [] none
      [subElemText "name" kv.1, subElemText "value" kv.2]) properties

/-- Embeds the `PigAction` data (constructor-normalized: `None` defaults
become empty lists / empty strings, dicts become ordered association
lists). -/
structure PigAction where
  name : String
  ok : Target
  error : Target
  script : String
  delete_paths : List String
  mkdir_paths : List String
  job_xml : String
  properties : List (String × String)
  params : List (String × String)
  arguments : List String
  files : List String
  archives : List String
  name_node : String
  job_tracker : String

/-- Embeds the body of `PigAction.to_xml` after the `super()` call: the `pig`
element built by the same sequence of conditional and repeated
`SubElement` calls as the source. -/
def PigAction.payload (a : PigAction) : Xml :=
  let pig := Xml.elem "pig" [] none []
  let pig := if a.job_tracker ≠ "" then pig.appendChild (subElemText "job-tracker" a.job_tracker) else pig
  let pig := if a.name_node ≠ "" then pig.appendChild (subElemText "name-node" a.name_node) else pig
  let pig := if a.delete_paths ≠ [] ∨ a.mkdir_paths ≠ [] then
      pig.appendChild (prepareElem a.delete_paths a.mkdir_paths) else pig
  let pig := if a.job_xml ≠ "" then pig.appendChild (subElemText "job-xml" a.job_xml) else pig
  let pig := if a.properties ≠ [] then pig.appendChild (configurationElem a.properties) else pig
  let pig := pig.appendChild (subElemText "script" a.script)
  let pig := appendEach pig (fun kv => subElemText "param" (kv.1 ++ "=" ++ kv.2)) a.params
  let pig := appendEach pig (fun s => subElemText "argument" s) a.arguments
  let pig := appendEach pig (fun p => subElemText "file" (p ++ "#" ++ basename p)) a.files
  let pig := appendEach pig (fun p => subElemText "archive" (p ++ "#" ++ basename p)) a.archives
  pig

/-- Embeds `PigAction.to_xml`: the base action element (with its `ok` and
`error` children) to which the `pig` payload element is appended. -/
def PigAction.to_xml (a : PigAction) : Xml :=
  (ActionNode.to_xml a.name a.ok a.error).appendChild a.payload

/-- Embeds the `HiveAction` data. -/
structure HiveAction where
  name : String
  ok : Target
  error : Target
  script : String
  delete_paths : List String
  mkdir_paths : List String
  job_xml : String
  properties : List (String × String)
  params : List (String × String)
  files : List String
  archives : List String
  name_node : String
  job_tracker : String

/-- Embeds the body of `HiveAction.to_xml` after the `super()` call. -/
def HiveAction.payload (a : HiveAction) : Xml :=
  let hive := Xml.elem "hive" [("xmlns", "uri:oozie:hive-action:0.2")] none []
  let hive := if a.job_tracker ≠ "" then hive.appendChild (subElemText "job-tracker" a.job_tracker) else hive
  let hive := if a.name_node ≠ "" then hive.appendChild (subElemText "name-node" a.name_node) else hive
  let hive := if a.delete_paths ≠ [] ∨ a.mkdir_paths ≠ [] then
      hive.appendChild (prepareElem a.delete_paths a.mkdir_paths) else hive
  let hive := if a.job_xml ≠ "" then hive.appendChild (subElemText "job-xml" a.job_xml) else hive
  let hive := if a.properties ≠ [] then hive.appendChild (configurationElem a.properties) else hive
  let hive := hive.appendChild (subElemText "script" a.script)
  let hive := appendEach hive (fun kv => subElemText "param" (kv.1 ++ "=" ++ kv.2)) a.params
  let hive := appendEach hive (fun p => subElemText "file" (p ++ "#" ++ basename p)) a.files
  let hive := appendEach hive (fun p => subElemText "archive" (p ++ "#" ++ basename p)) a.archives
  hive

/-- Embeds `HiveAction.to_xml`. -/
def HiveAction.to_xml (a : HiveAction) : Xml :=
  (ActionNode.to_xml a.name a.ok a.error).appendChild a.payload

/-- Embeds the `FsAction` data (`moves` is a list of (src, dst) pairs). -/
structure FsAction where
  name : String
  ok : Target
  error : Target
  delete_paths : List String
  mkdir_paths : List String
  moves : List (String × String)
  properties : List (String × String)
  job_xml : String
  name_node : String

/-- Embeds the body of `FsAction.to_xml` after the `super()` call (the
element tag is the literal `FS` of the source). -/
def FsAction.payload (a : FsAction) : Xml :=
  let fs := Xml.elem "FS" [] none []
  let fs := if a.name_node ≠ "" then fs.appendChild (subElemText "name-node" a.name_node) else fs
  let fs := appendEach fs (fun p => Xml.elem "delete" [("path", p)] none []) a.delete_paths
  let fs := appendEach fs (fun p => Xml.elem "mkdir" [("path", p)] none []) a.mkdir_paths
  let fs := appendEach fs (fun m => Xml.elem "move" [("source", m.1), ("target", m.2)] none []) a.moves
  let fs := if a.job_xml ≠ "" then fs.appendChild (subElemText "job-xml" a.job_xml) else fs
  let fs := if a.properties ≠ [] then fs.appendChild (configurationElem a.properties) else fs
  fs

/-- Embeds `FsAction.to_xml`. -/
def FsAction.to_xml (a : FsAction) : Xml :=
  (ActionNode.to_xml a.name a.ok a.error).appendChild a.payload

/-- Embeds the `ShellAction` data. -/
structure ShellAction where
  name : String
  ok : Target
  error : Target
  command : String
  delete_paths : List String
  mkdir_paths : List String
  job_xml : String
  properties : List (String × String)
  arguments : List String
  env_vars : List (String × String)
  files : List String
  archives : List String
  capture_output : Bool
  name_node : String
  job_tracker : String

/-- Embeds the body of `ShellAction.to_xml` after the `super()` call: note
that the source emits the `env-var` elements before the `argument`
elements. -/
def ShellAction.payload (a : ShellAction) : Xml :=
  let shell := Xml.elem "shell" [("xmlns", "uri:oozie:shell-action:0.1")] none []
  let shell := if a.job_tracker ≠ "" then shell.appendChild (subElemText "job-tracker" a.job_tracker) else shell
  let shell := if a.name_node ≠ "" then shell.appendChild (subElemText "name-node" a.name_node) else shell
  let shell := if a.delete_paths ≠ [] ∨ a.mkdir_paths ≠ [] then
      shell.appendChild (prepareElem a.delete_paths a.mkdir_paths) else shell
  let shell := if a.job_xml ≠ "" then shell.appendChild (subElemText "job-xml" a.job_xml) else shell
  let shell := if a.properties ≠ [] then shell.appendChild (configurationElem a.properties) else shell
  let shell := shell.appendChild (subElemText "exec" a.command)
  let shell := appendEach shell (fun kv => subElemText "env-var" (kv.1 ++ "=" ++ kv.2)) a.env_vars
  let shell := appendEach shell (fun s => subElemText "argument" s) a.arguments
  let shell := appendEach shell (fun p => subElemText "file" (p ++ "#" ++ basename p)) a.files
  let shell := appendEach shell (fun p => subElemText "archive" (p ++ "#" ++ basename p)) a.archives
  let shell := if a.capture_output then shell.appendChild (Xml.elem "capture-output" [] none []) else shell
  shell

/-- Embeds `ShellAction.to_xml`. -/
def ShellAction.to_xml (a : ShellAction) : Xml :=
  (ActionNode.to_xml a.name a.ok a.error).appendChild a.payload

/-- Embeds the `EmailAction` data (`cc` is `""` when the optional Python
argument is `None`, matching the `if self.cc:` truthiness test; the Python
field named `to` is called `toAddr` here because `to` is not a usable
identifier). -/
structure EmailAction where
  name : String
  ok : Target
  error : Target
  toAddr : String
  subject : String
  body : String
  cc : String

/-- Embeds the body of `EmailAction.to_xml` after the `super()` call. -/
def EmailAction.payload (a : EmailAction) : Xml :=
  let email := Xml.elem "email" [("xmlns", "uri:oozie:email-action:0.1")] none []
  let email := email.appendChild (subElemText "to" a.toAddr)
  let email := if a.cc ≠ "" then email.appendChild (subElemText "cc" a.cc) else email
  let email := email.appendChild (subElemText "subject" a.subject)
  let email := email.appendChild (subElemText "body" a.body)
  email

/-- Embeds `EmailAction.to_xml`. -/
def EmailAction.to_xml (a : EmailAction) : Xml :=
  (ActionNode.to_xml a.name a.ok a.error).appendChild a.payload

/-- Embeds the `DecisionNode` data: an ordered list of (target, predicate)
cases plus a default target. -/
structure DecisionNode where
  name : String
  cases : List (Target × String)
  dflt : Target

/-- Embeds `DecisionNode.to_xml`: a `decision` element holding one `switch`
element, whose children are one `case` per entry (attribute `to` resolved,
text the predicate) followed by one `default`. -/
def DecisionNode.to_xml (d : DecisionNode) : Xml :=
  let switch := Xml.elem "switch" [] none []
  let switch := appendEach switch
    (fun c => Xml.elem "case" [("to", resolveTarget c.1)] (some c.2) []) d.cases
  let switch := switch.appendChild
    (Xml.elem "default" [("to", resolveTarget d.dflt)] none [])
  (Xml.elem "decision" [("name", d.name)] none []).appendChild switch

theorem appendEach_elem (t : String) (ats : List (String × String)) (tx : Option String)
    (cs0 : List Xml) (f : α → Xml) (xs : List α) :
    appendEach (Xml.elem t ats tx cs0) f xs = Xml.elem t ats tx (cs0 ++ xs.map f) := by
  induction xs generalizing cs0 with
  | nil => simp
  | cons x xs ih => rw [appendEach_cons]; simp [Xml.appendChild, ih]

theorem mem_ite_nil {c : Prop} [Decidable c] {e x : Xml}
    (h : x ∈ if c then [e] else ([] : List Xml)) : x = e := by
  by_cases hc : c
  · simpa [hc] using h
  · simp [hc] at h

theorem filter_map_of_false (f : α → Xml) (p : Xml → Bool) (l : List α)
    (h : ∀ x, p (f x) = false) : (l.map f).filter p = [] := by
  induction l with
  | nil => rfl
  | cons x xs ih => simp [h, ih]

theorem filter_map_of_true (f : α → Xml) (p : Xml → Bool) (l : List α)
    (h : ∀ x, p (f x) = true) : (l.map f).filter p = l.map f := by
  induction l with
  | nil => rfl
  | cons x xs ih => simp [h, ih]

/-- The children that `ShellAction.to_xml` emits before the `exec` element:
the optional job-tracker, name-node, prepare, job-xml and configuration
elements, in source order. -/
def shellPre (a : ShellAction) : List Xml :=
  (if a.job_tracker ≠ "" then [subElemText "job-tracker" a.job_tracker] else []) ++
  (if a.name_node ≠ "" then [subElemText "name-node" a.name_node] else []) ++
  (if a.delete_paths ≠ [] ∨ a.mkdir_paths ≠ [] then
    [prepareElem a.delete_paths a.mkdir_paths] else []) ++
  (if a.job_xml ≠ "" then [subElemText "job-xml" a.job_xml] else []) ++
  (if a.properties ≠ [] then [configurationElem a.properties] else [])

theorem shell_payload_children (a : ShellAction) :
    (ShellAction.payload a).children =
      shellPre a ++ [subElemText "exec" a.command] ++
      a.env_vars.map (fun kv => subElemText "env-var" (kv.1 ++ "=" ++ kv.2)) ++
      a.arguments.map (fun s => subElemText "argument" s) ++
      a.files.map (fun p => subElemText "file" (p ++ "#" ++ basename p)) ++
      a.archives.map (fun p => subElemText "archive" (p ++ "#" ++ basename p)) ++
      (if a.capture_output then [Xml.elem "capture-output" [] none []] else []) := by
  unfold ShellAction.payload shellPre
  split_ifs <;> simp [Xml.appendChild, appendEach_elem, Xml.children]

/-- The children that `PigAction.to_xml` emits before the `script` element. -/
def pigPre (a : PigAction) : List Xml :=
  (if a.job_tracker ≠ "" then [subElemText "job-tracker" a.job_tracker] else []) ++
  (if a.name_node ≠ "" then [subElemText "name-node" a.name_node] else []) ++
  (if a.delete_paths ≠ [] ∨ a.mkdir_paths ≠ [] then
    [prepareElem a.delete_paths a.mkdir_paths] else []) ++
  (if a.job_xml ≠ "" then [subElemText "job-xml" a.job_xml] else []) ++
  (if a.properties ≠ [] then [configurationElem a.properties] else [])

theorem pig_payload_children (a : PigAction) :
    (PigAction.payload a).children =
      pigPre a ++ [subElemText "script" a.script] ++
      a.params.map (fun kv => subElemText "param" (kv.1 ++ "=" ++ kv.2)) ++
      a.arguments.map (fun s => subElemText "argument" s) ++
      a.files.map (fun p => subElemText "file" (p ++ "#" ++ basename p)) ++
      a.archives.map (fun p => subElemText "archive" (p ++ "#" ++ basename p)) := by
  unfold PigAction.payload pigPre
  split_ifs <;> simp [Xml.appendChild, appendEach_elem, Xml.children]

/-- The children that `HiveAction.to_xml` emits before the `script`
element. -/
def hivePre (a : HiveAction) : List Xml :=
  (if a.job_tracker ≠ "" then [subElemText "job-tracker" a.job_tracker] else []) ++
  (if a.name_node ≠ "" then [subElemText "name-node" a.name_node] else []) ++
  (if a.delete_paths ≠ [] ∨ a.mkdir_paths ≠ [] then
    [prepareElem a.delete_paths a.mkdir_paths] else []) ++
  (if a.job_xml ≠ "" then [subElemText "job-xml" a.job_xml] else []) ++
  (if a.properties ≠ [] then [configurationElem a.properties] else [])

theorem hive_payload_children (a : HiveAction) :
    (HiveAction.payload a).children =
      hivePre a ++ [subElemText "script" a.script] ++
      a.params.map (fun kv => subElemText "param" (kv.1 ++ "=" ++ kv.2)) ++
      a.files.map (fun p => subElemText "file" (p ++ "#" ++ basename p)) ++
      a.archives.map (fun p => subElemText "archive" (p ++ "#" ++ basename p)) := by
  unfold HiveAction.payload hivePre
  split_ifs <;> simp [Xml.appendChild, appendEach_elem, Xml.children]

/-- An email action whose `ok` target is a direct node reference named
"end" and whose `error` target is the literal string "kill" (the example
input of the transition-placement claim). -/
def cexEmail : EmailAction :=
  ⟨"a", Target.node "end", Target.raw "kill", "x@y", "subj", "body", ""⟩

/-- Counterexample for C3: at `cexEmail` the children of the `action`
wrapper are, in order, the `ok`, `error` and `email` elements, so the two
trailing child elements are NOT the `ok`/`error` pair (the payload element
comes last, after them). -/
theorem action_ok_error_not_trailing :
    ((cexEmail.to_xml).children.map Xml.tag = ["ok", "error", "email"]) ∧
    ¬ (((cexEmail.to_xml).children.map Xml.tag).drop
        ((cexEmail.to_xml).children.length - 2) = ["ok", "error"]) := by
  constructor
  · rfl
  · decide

/-- C3 (amended): for every action-node variant the `ok` and `error`
transition sub-elements are the two LEADING (first) child elements of the
action wrapper — the variant payload element is appended after them — with
each `to` attribute equal to the target node's name when the target is a
direct node reference and to the raw string otherwise; in particular an
action whose ok target is a node reference named "end" and whose error
target is the literal string "kill" emits ok to="end" and error to="kill"
as its first two children. -/
theorem action_ok_error_leading :
    (∀ a : PigAction, (PigAction.to_xml a).children.take 2 =
      [Xml.elem "ok" [("to", resolveTarget a.ok)] none [],
       Xml.elem "error" [("to", resolveTarget a.error)] none []]) ∧
    (∀ a : HiveAction, (HiveAction.to_xml a).children.take 2 =
      [Xml.elem "ok" [("to", resolveTarget a.ok)] none [],
       Xml.elem "error" [("to", resolveTarget a.error)] none []]) ∧
    (∀ a : FsAction, (FsAction.to_xml a).children.take 2 =
      [Xml.elem "ok" [("to", resolveTarget a.ok)] none [],
       Xml.elem "error" [("to", resolveTarget a.error)] none []]) ∧
    (∀ a : ShellAction, (ShellAction.to_xml a).children.take 2 =
      [Xml.elem "ok" [("to", resolveTarget a.ok)] none [],
       Xml.elem "error" [("to", resolveTarget a.error)] none []]) ∧
    (∀ a : EmailAction, (EmailAction.to_xml a).children.take 2 =
      [Xml.elem "ok" [("to", resolveTarget a.ok)] none [],
       Xml.elem "error" [("to", resolveTarget a.error)] none []]) ∧
    ((cexEmail.to_xml).children.take 2 =
      [Xml.elem "ok" [("to", "end")] none [],
       Xml.elem "error" [("to", "kill")] none []]) := by
  refine ⟨fun a => ?_, fun a => ?_, fun a => ?_, fun a => ?_, fun a => ?_, rfl⟩ <;>
    simp [PigAction.to_xml, HiveAction.to_xml, FsAction.to_xml, ShellAction.to_xml,
      EmailAction.to_xml, ActionNode.to_xml, Xml.appendChild, Xml.children]

/-- An email action whose `ok` transition target is the empty string (and
not a node reference). -/
def emptyTargetEmail : EmailAction :=
  ⟨"a", Target.raw "", Target.raw "kill", "x@y", "subj", "body", ""⟩

/-- C4 evaluation: the code performs no validation of transition targets;
serializing an action whose ok target is the empty string succeeds and
silently emits an `ok` element whose `to` attribute is the empty string
(the embedding is a total function into `Xml` because the source has no
failure path at all). -/
theorem empty_target_emitted_without_error :
    (emptyTargetEmail.to_xml).children.take 2 =
      [Xml.elem "ok" [("to", "")] none [],
       Xml.elem "error" [("to", "kill")] none []] := rfl

/-- C5: a decision node emits a `decision` element containing exactly one
`switch` element whose children are one `case` per entry of the case list,
in list order, with `to` the resolved target name and text the predicate,
followed by exactly one `default` element with `to` the resolved default
name; in particular cases [("x", "a=b"), ("y", "a=c")] with default "z"
yield case(to="x", text="a=b"), case(to="y", text="a=c"), default(to="z"). -/
theorem decision_to_xml_switch_cases_default :
    (∀ d : DecisionNode,
      d.to_xml = Xml.elem "decision" [("name", d.name)] none
        [Xml.elem "switch" [] none
          (d.cases.map (fun c => Xml.elem "case" [("to", resolveTarget c.1)] (some c.2) []) ++
           [Xml.elem "default" [("to", resolveTarget d.dflt)] none []])]) ∧
    (DecisionNode.to_xml ⟨"d", [(Target.raw "x", "a=b"), (Target.raw "y", "a=c")], Target.raw "z"⟩ =
      Xml.elem "decision" [("name", "d")] none
        [Xml.elem "switch" [] none
          [Xml.elem "case" [("to", "x")] (some "a=b") [],
           Xml.elem "case" [("to", "y")] (some "a=c") [],
           Xml.elem "default" [("to", "z")] none []]]) := by
  refine ⟨fun d => ?_, rfl⟩
  simp [DecisionNode.to_xml, appendEach_elem, Xml.appendChild]

/-- Tags of the repeated per-item elements a shell action emits after its
command payload. -/
def isRepeatedShellTag (x : Xml) : Bool :=
  x.tag == "env-var" || x.tag == "argument" || x.tag == "file" || x.tag == "archive"

/-- A shell action with one argument and one environment variable (all
optional fields empty, so the emitted children are exactly exec, env-var,
argument). -/
def envArgShell : ShellAction :=
  ⟨"s", Target.raw "e", Target.raw "k", "c", [], [], "", [], ["a1"], [("k", "v")],
    [], [], false, "", ""⟩

/-- Counterexample for C6: in the shell element emitted for `envArgShell`
the children are exec, env-var, argument in that order, so the env-var
element comes BEFORE the argument element — the claim that every argument
element precedes every env-var element fails. -/
theorem shell_env_var_before_argument :
    ((ShellAction.payload envArgShell).children.map Xml.tag = ["exec", "env-var", "argument"]) ∧
    List.indexOf "env-var" ((ShellAction.payload envArgShell).children.map Xml.tag) <
      List.indexOf "argument" ((ShellAction.payload envArgShell).children.map Xml.tag) := by
  constructor
  · rfl
  · decide

/-- C6 (amended): for every shell action with non-empty arguments and
non-empty environment-variable mapping, the emitted shell element contains,
after the command payload (`exec`) element, the repeated per-item elements
in the fixed order environment-variables / arguments / files / archives —
every env-var element precedes every argument element, which precede every
file element, which precede every archive element — and no element emitted
before `exec` carries one of those repeated tags. -/
theorem shell_repeated_elements_order (a : ShellAction)
    (hargs : a.arguments ≠ []) (henv : a.env_vars ≠ []) :
    (ShellAction.payload a).children =
      shellPre a ++ [subElemText "exec" a.command] ++
      a.env_vars.map (fun kv => subElemText "env-var" (kv.1 ++ "=" ++ kv.2)) ++
      a.arguments.map (fun s => subElemText "argument" s) ++
      a.files.map (fun p => subElemText "file" (p ++ "#" ++ basename p)) ++
      a.archives.map (fun p => subElemText "archive" (p ++ "#" ++ basename p)) ++
      (if a.capture_output then [Xml.elem "capture-output" [] none []] else []) ∧
    (shellPre a).any isRepeatedShellTag = false := by
  refine ⟨shell_payload_children a, ?_⟩
  unfold shellPre
  split_ifs <;>
    simp [isRepeatedShellTag, subElemText, prepareElem, configurationElem]

/-- Witness for C6 (amended) at the concrete shell action `envArgShell`. -/
theorem shell_repeated_elements_order_witness :
    (ShellAction.payload envArgShell).children =
      shellPre envArgShell ++ [subElemText "exec" envArgShell.command] ++
      envArgShell.env_vars.map (fun kv => subElemText "env-var" (kv.1 ++ "=" ++ kv.2)) ++
      envArgShell.arguments.map (fun s => subElemText "argument" s) ++
      envArgShell.files.map (fun p => subElemText "file" (p ++ "#" ++ basename p)) ++
      envArgShell.archives.map (fun p => subElemText "archive" (p ++ "#" ++ basename p)) ++
      (if envArgShell.capture_output then [Xml.elem "capture-output" [] none []] else []) ∧
    (shellPre envArgShell).any isRepeatedShellTag = false :=
  shell_repeated_elements_order envArgShell (by decide) (by decide)

/-- A shell action with a single file "/a/file1.py" (the example input of
the path#basename claim). -/
def fileShell : ShellAction :=
  ⟨"s", Target.raw "e", Target.raw "k", "c", [], [], "", [], [], [],
    ["/a/file1.py"], [], false, "", ""⟩

/-- C7: for every Pig, Hive or Shell action, every path p in the files list
yields a `file` child of the payload element with text p ++ "#" ++
basename p, and every entry of the archives list yields an `archive` child
with text formed the same way; in particular basename "/a/file1.py" is
"file1.py", so files=["/a/file1.py"] emits text "/a/file1.py#file1.py". -/
theorem file_archive_path_basename :
    (∀ a : ShellAction, ∀ p ∈ a.files,
      subElemText "file" (p ++ "#" ++ basename p) ∈ (ShellAction.payload a).children) ∧
    (∀ a : ShellAction, ∀ p ∈ a.archives,
      subElemText "archive" (p ++ "#" ++ basename p) ∈ (ShellAction.payload a).children) ∧
    (∀ a : PigAction, ∀ p ∈ a.files,
      subElemText "file" (p ++ "#" ++ basename p) ∈ (PigAction.payload a).children) ∧
    (∀ a : PigAction, ∀ p ∈ a.archives,
      subElemText "archive" (p ++ "#" ++ basename p) ∈ (PigAction.payload a).children) ∧
    (∀ a : HiveAction, ∀ p ∈ a.files,
      subElemText "file" (p ++ "#" ++ basename p) ∈ (HiveAction.payload a).children) ∧
    (∀ a : HiveAction, ∀ p ∈ a.archives,
      subElemText "archive" (p ++ "#" ++ basename p) ∈ (HiveAction.payload a).children) ∧
    basename "/a/file1.py" = "file1.py" := by
  refine ⟨fun a p hp => ?_, fun a p hp => ?_, fun a p hp => ?_, fun a p hp => ?_,
    fun a p hp => ?_, fun a p hp => ?_, rfl⟩ <;>
  · first
    | rw [shell_payload_children]
    | rw [pig_payload_children]
    | rw [hive_payload_children]
    have hm := List.mem_map_of_mem (fun q => subElemText "file" (q ++ "#" ++ basename q)) hp
    have hm' := List.mem_map_of_mem (fun q => subElemText "archive" (q ++ "#" ++ basename q)) hp
    simp only [List.mem_append]
    tauto

/-- Witness for C7 at the concrete shell action `fileShell`. -/
theorem file_archive_path_basename_witness :
    subElemText "file" ("/a/file1.py" ++ "#" ++ basename "/a/file1.py") ∈
      (ShellAction.payload fileShell).children :=
  file_archive_path_basename.1 fileShell "/a/file1.py" (by decide)

/-- Models the inner for-loop of `Workflow._collect_all_nodes`: each child
of the current node is appended to the frontier unless it is already
visited or already enqueued (the membership test sees the frontier as
already extended by earlier children of the same node, exactly as the
Python list grows while the loop runs). -/
def enqueue (visited fr cs : List Nat) : List Nat :=
  cs.foldl (fun fr2 n => if n ∈ visited ∨ n ∈ fr2 then fr2 else fr2 ++ [n]) fr

/-- Fuel-indexed embedding of the while-loop of
`Workflow._collect_all_nodes`: pop the head of the frontier, append it to
the output, add it to the visited set, enqueue its unseen children.  The
Python loop is unbounded; the fuel only bounds the number of iterations and
is shown elsewhere to be irrelevant once it reaches the size of the node
universe. -/
def collectAux (g : Nat → List Nat) : Nat → List Nat → List Nat → List Nat → List Nat
  | 0, _, _, out => out
  | fuel + 1, visited, frontier, out =>
    match frontier with
    | [] => out
    | c :: rest =>
        collectAux g fuel (c :: visited) (enqueue (c :: visited) rest (g c)) (out ++ [c])

/-- Embeds `Workflow._collect_all_nodes`'s computation of the node list:
`self.nodes = []`, `visited = set()`, `nodes_to_visit = [self.start]`, then
the loop. -/
def collect_all_nodes (g : Nat → List Nat) (fuel : Nat) (start : Nat) : List Nat :=
  collectAux g fuel [] [start] []

/-- Reachability from `s` by following child-node links of `g`. -/
inductive Reachable (g : Nat → List Nat) (s : Nat) : Nat → Prop where
  | refl : Reachable g s s
  | step {x y : Nat} : Reachable g s x → y ∈ g x → Reachable g s y

theorem enqueue_cons (visited fr : List Nat) (n : Nat) (cs : List Nat) :
    enqueue visited fr (n :: cs) =
      enqueue visited (if n ∈ visited ∨ n ∈ fr then fr else fr ++ [n]) cs := rfl

theorem mem_enqueue (visited fr cs : List Nat) (x : Nat) :
    x ∈ enqueue visited fr cs ↔ x ∈ fr ∨ (x ∈ cs ∧ x ∉ visited) := by
  induction cs generalizing fr with
  | nil => simp [enqueue]
  | cons n cs ih =>
    rw [enqueue_cons]
    by_cases h : n ∈ visited ∨ n ∈ fr
    · rw [if_pos h, ih]
      constructor
      · rintro (hx | ⟨hx, hnv⟩)
        · exact Or.inl hx
        · exact Or.inr ⟨List.mem_cons_of_mem _ hx, hnv⟩
      · rintro (hx | ⟨hx, hnv⟩)
        · exact Or.inl hx
        · rcases List.mem_cons.mp hx with rfl | hx
          · rcases h with h | h
            · exact absurd h hnv
            · exact Or.inl h
          · exact Or.inr ⟨hx, hnv⟩
    · rw [if_neg h, ih]
      rw [not_or] at h
      constructor
      · rintro (hx | ⟨hx, hnv⟩)
        · rcases List.mem_append.mp hx with hx | hx
          · exact Or.inl hx
          · have hxn : x = n := by simpa using hx
            subst hxn
            exact Or.inr ⟨List.mem_cons_self _ _, h.1⟩
        · exact Or.inr ⟨List.mem_cons_of_mem _ hx, hnv⟩
      · rintro (hx | ⟨hx, hnv⟩)
        · exact Or.inl (List.mem_append.mpr (Or.inl hx))
        · rcases List.mem_cons.mp hx with rfl | hx
          · exact Or.inl (List.mem_append.mpr (Or.inr (by simp)))
          · exact Or.inr ⟨hx, hnv⟩

theorem enqueue_nodup (visited fr cs : List Nat) (h : fr.Nodup) :
    (enqueue visited fr cs).Nodup := by
  induction cs generalizing fr with
  | nil => exact h
  | cons n cs ih =>
    rw [enqueue_cons]
    by_cases hc : n ∈ visited ∨ n ∈ fr
    · rw [if_pos hc]; exact ih _ h
    · rw [if_neg hc]
      rw [not_or] at hc
      refine ih _ ?_
      simp [List.nodup_append, h, hc.2]

/-- Loop invariant of `Workflow._collect_all_nodes` over a node universe
`V` closed under the child function: the output has no duplicates, the
frontier has no duplicates and is disjoint from the visited set, the
visited set holds exactly the output's members, every child of an output
node is already output or enqueued, and the frontier stays inside `V`. -/
structure BfsInv (g : Nat → List Nat) (V visited frontier out : List Nat) : Prop where
  out_nodup : out.Nodup
  fr_nodup : frontier.Nodup
  fr_fresh : ∀ x ∈ frontier, x ∉ visited
  vis_eq : ∀ x : Nat, x ∈ visited ↔ x ∈ out
  closed : ∀ x ∈ out, ∀ y ∈ g x, y ∈ out ∨ y ∈ frontier
  fr_sub : ∀ x ∈ frontier, x ∈ V

/-- Number of universe nodes not yet visited, the loop's termination
measure. -/
def remaining (V visited : List Nat) : Nat :=
  (V.toFinset \ visited.toFinset).card

theorem remaining_nil (V : List Nat) : remaining V [] = V.toFinset.card := by
  simp [remaining]

theorem remaining_lt (V visited : List Nat) (c : Nat) (hc : c ∈ V) (hnc : c ∉ visited) :
    remaining V (c :: visited) < remaining V visited := by
  have hsub : V.toFinset \ (c :: visited).toFinset ⊆ V.toFinset \ visited.toFinset := by
    refine Finset.sdiff_subset_sdiff (Finset.Subset.refl _) ?_
    intro x hx
    simp only [List.toFinset_cons]
    exact Finset.mem_insert_of_mem hx
  refine Finset.card_lt_card ((Finset.ssubset_iff_of_subset hsub).mpr ?_)
  exact ⟨c, by simp [hc, hnc], by simp⟩

theorem remaining_pos (V visited : List Nat) (c : Nat) (hc : c ∈ V) (hnc : c ∉ visited) :
    0 < remaining V visited :=
  Finset.card_pos.mpr ⟨c, by simp [remaining, hc, hnc]⟩

theorem mem_visited_of_remaining_zero (V visited : List Nat) (x : Nat)
    (h : remaining V visited = 0) (hx : x ∈ V) : x ∈ visited := by
  by_contra hnx
  have hmem : x ∈ V.toFinset \ visited.toFinset := by simp [hx, hnx]
  rw [Finset.card_eq_zero.mp h] at hmem
  exact absurd hmem (Finset.not_mem_empty x)

theorem frontier_nil_of_remaining_zero (g : Nat → List Nat) (V visited frontier out : List Nat)
    (h : BfsInv g V visited frontier out) (hr : remaining V visited = 0) : frontier = [] := by
  cases frontier with
  | nil => rfl
  | cons c rest =>
    exfalso
    have hcV : c ∈ V := h.fr_sub c (List.mem_cons_self c rest)
    have hcv : c ∉ visited := h.fr_fresh c (List.mem_cons_self c rest)
    exact hcv (mem_visited_of_remaining_zero V visited c hr hcV)

theorem BfsInv_step (g : Nat → List Nat) (V visited rest out : List Nat) (c : Nat)
    (hcl : ∀ x ∈ V, ∀ y ∈ g x, y ∈ V) (h : BfsInv g V visited (c :: rest) out) :
    BfsInv g V (c :: visited) (enqueue (c :: visited) rest (g c)) (out ++ [c]) := by
  have hcv : c ∉ visited := h.fr_fresh c (List.mem_cons_self c rest)
  have hco : c ∉ out := fun hc => hcv ((h.vis_eq c).mpr hc)
  have hcV : c ∈ V := h.fr_sub c (List.mem_cons_self c rest)
  have hrest_nodup : rest.Nodup := (List.nodup_cons.mp h.fr_nodup).2
  have hcrest : c ∉ rest := (List.nodup_cons.mp h.fr_nodup).1
  constructor
  · simp [List.nodup_append, h.out_nodup, hco]
  · exact enqueue_nodup _ _ _ hrest_nodup
  · intro x hx
    rcases (mem_enqueue _ _ _ _).mp hx with hr | ⟨_, hnx⟩
    · intro hmem
      rcases List.mem_cons.mp hmem with hxc | hv
      · exact hcrest (hxc ▸ hr)
      · exact h.fr_fresh x (List.mem_cons_of_mem _ hr) hv
    · exact hnx
  · intro x
    simp only [List.mem_cons, List.mem_append, List.mem_singleton, h.vis_eq x]
    tauto
  · intro x hx y hy
    rcases List.mem_append.mp hx with hx | hx
    · rcases h.closed x hx y hy with hyo | hyf
      · exact Or.inl (List.mem_append.mpr (Or.inl hyo))
      · rcases List.mem_cons.mp hyf with rfl | hyr
        · exact Or.inl (List.mem_append.mpr (Or.inr (by simp)))
        · exact Or.inr ((mem_enqueue _ _ _ _).mpr (Or.inl hyr))
    · have hxc : x = c := by simpa using hx
      subst hxc
      by_cases hyv : y ∈ x :: visited
      · rcases List.mem_cons.mp hyv with rfl | hyv
        · exact Or.inl (List.mem_append.mpr (Or.inr (by simp)))
        · exact Or.inl (List.mem_append.mpr (Or.inl ((h.vis_eq y).mp hyv)))
      · exact Or.inr ((mem_enqueue _ _ _ _).mpr (Or.inr ⟨hy, hyv⟩))
  · intro x hx
    rcases (mem_enqueue _ _ _ _).mp hx with hx | ⟨hx, _⟩
    · exact h.fr_sub x (List.mem_cons_of_mem _ hx)
    · exact hcl c hcV x hx

theorem collectAux_frontier_nil (g : Nat → List Nat) (fuel : Nat) (visited out : List Nat) :
    collectAux g fuel visited [] out = out := by
  cases fuel <;> rfl

theorem collectAux_spec (g : Nat → List Nat) (V : List Nat)
    (hcl : ∀ x ∈ V, ∀ y ∈ g x, y ∈ V) :
    ∀ (fuel : Nat) (visited frontier out : List Nat),
      BfsInv g V visited frontier out → remaining V visited ≤ fuel →
      (collectAux g fuel visited frontier out).Nodup ∧
      (∀ x ∈ out, x ∈ collectAux g fuel visited frontier out) ∧
      (∀ x ∈ frontier, x ∈ collectAux g fuel visited frontier out) ∧
      (∀ x ∈ collectAux g fuel visited frontier out, ∀ y ∈ g x,
        y ∈ collectAux g fuel visited frontier out) := by
  intro fuel
  induction fuel with
  | zero =>
    intro visited frontier out hInv hfuel
    have hfr : frontier = [] :=
      frontier_nil_of_remaining_zero g V visited frontier out hInv (Nat.le_zero.mp hfuel)
    subst hfr
    rw [collectAux_frontier_nil]
    refine ⟨hInv.out_nodup, fun x hx => hx, by simp, ?_⟩
    intro x hx y hy
    rcases hInv.closed x hx y hy with h | h
    · exact h
    · simp at h
  | succ n ih =>
    intro visited frontier out hInv hfuel
    cases frontier with
    | nil =>
      rw [collectAux_frontier_nil]
      refine ⟨hInv.out_nodup, fun x hx => hx, by simp, ?_⟩
      intro x hx y hy
      rcases hInv.closed x hx y hy with h | h
      · exact h
      · simp at h
    | cons c rest =>
      have hcV : c ∈ V := hInv.fr_sub c (List.mem_cons_self c rest)
      have hcv : c ∉ visited := hInv.fr_fresh c (List.mem_cons_self c rest)
      have hstep := BfsInv_step g V visited rest out c hcl hInv
      have hrem : remaining V (c :: visited) ≤ n := by
        have := remaining_lt V visited c hcV hcv
        omega
      have hrec := ih (c :: visited) (enqueue (c :: visited) rest (g c)) (out ++ [c]) hstep hrem
      have hred : collectAux g (n + 1) visited (c :: rest) out =
          collectAux g n (c :: visited) (enqueue (c :: visited) rest (g c)) (out ++ [c]) := rfl
      rw [hred]
      refine ⟨hrec.1, ?_, ?_, hrec.2.2.2⟩
      · intro x hx
        exact hrec.2.1 x (List.mem_append.mpr (Or.inl hx))
      · intro x hx
        rcases List.mem_cons.mp hx with hxc | hx
        · exact hrec.2.1 x (by simp [hxc])
        · exact hrec.2.2.1 x ((mem_enqueue _ _ _ _).mpr (Or.inl hx))

theorem collectAux_sound (g : Nat → List Nat) (P : Nat → Prop)
    (hP : ∀ x y, P x → y ∈ g x → P y) :
    ∀ (fuel : Nat) (visited frontier out : List Nat),
      (∀ x ∈ out, P x) → (∀ x ∈ frontier, P x) →
      ∀ x ∈ collectAux g fuel visited frontier out, P x := by
  intro fuel
  induction fuel with
  | zero =>
    intro visited frontier out hout _ x hx
    exact hout x hx
  | succ n ih =>
    intro visited frontier out hout hfr
    cases frontier with
    | nil =>
      intro x hx
      rw [collectAux_frontier_nil] at hx
      exact hout x hx
    | cons c rest =>
      intro x hx
      refine ih (c :: visited) (enqueue (c :: visited) rest (g c)) (out ++ [c]) ?_ ?_ x hx
      · intro z hz
        rcases List.mem_append.mp hz with hz | hz
        · exact hout z hz
        · have hzc : z = c := by simpa using hz
          exact hzc ▸ hfr c (List.mem_cons_self _ _)
      · intro z hz
        rcases (mem_enqueue _ _ _ _).mp hz with hz | ⟨hz, _⟩
        · exact hfr z (List.mem_cons_of_mem _ hz)
        · exact hP c z (hfr c (List.mem_cons_self _ _)) hz

theorem collectAux_fuel_indep (g : Nat → List Nat) (V : List Nat)
    (hcl : ∀ x ∈ V, ∀ y ∈ g x, y ∈ V) :
    ∀ (fuel fuel' : Nat) (visited frontier out : List Nat),
      BfsInv g V visited frontier out → remaining V visited ≤ fuel →
      remaining V visited ≤ fuel' →
      collectAux g fuel visited frontier out = collectAux g fuel' visited frontier out := by
  intro fuel
  induction fuel with
  | zero =>
    intro fuel' visited frontier out hInv hf hf'
    have hfr : frontier = [] :=
      frontier_nil_of_remaining_zero g V visited frontier out hInv (Nat.le_zero.mp hf)
    subst hfr
    rw [collectAux_frontier_nil, collectAux_frontier_nil]
  | succ n ih =>
    intro fuel' visited frontier out hInv hf hf'
    cases frontier with
    | nil => rw [collectAux_frontier_nil, collectAux_frontier_nil]
    | cons c rest =>
      have hcV : c ∈ V := hInv.fr_sub c (List.mem_cons_self c rest)
      have hcv : c ∉ visited := hInv.fr_fresh c (List.mem_cons_self c rest)
      have hpos : 0 < remaining V visited := remaining_pos V visited c hcV hcv
      cases fuel' with
      | zero => omega
      | succ m =>
        have hstep := BfsInv_step g V visited rest out c hcl hInv
        have hlt := remaining_lt V visited c hcV hcv
        exact ih m (c :: visited) (enqueue (c :: visited) rest (g c)) (out ++ [c]) hstep
          (by omega) (by omega)

theorem collectAux_length (g : Nat → List Nat) (V : List Nat)
    (hcl : ∀ x ∈ V, ∀ y ∈ g x, y ∈ V) :
    ∀ (fuel : Nat) (visited frontier out : List Nat),
      BfsInv g V visited frontier out →
      (collectAux g fuel visited frontier out).length ≤ out.length + remaining V visited := by
  intro fuel
  induction fuel with
  | zero =>
    intro visited frontier out _
    have h : collectAux g 0 visited frontier out = out := rfl
    rw [h]
    omega
  | succ n ih =>
    intro visited frontier out hInv
    cases frontier with
    | nil =>
      rw [collectAux_frontier_nil]
      omega
    | cons c rest =>
      have hcV : c ∈ V := hInv.fr_sub c (List.mem_cons_self c rest)
      have hcv : c ∉ visited := hInv.fr_fresh c (List.mem_cons_self c rest)
      have hstep := BfsInv_step g V visited rest out c hcl hInv
      have hlt := remaining_lt V visited c hcV hcv
      have hrec := ih (c :: visited) (enqueue (c :: visited) rest (g c)) (out ++ [c]) hstep
      have hred : collectAux g (n + 1) visited (c :: rest) out =
          collectAux g n (c :: visited) (enqueue (c :: visited) rest (g c)) (out ++ [c]) := rfl
      rw [hred]
      rw [List.length_append] at hrec
      simp only [List.length_singleton] at hrec
      omega

theorem BfsInv_init (g : Nat → List Nat) (V : List Nat) (start : Nat) (hs : start ∈ V) :
    BfsInv g V [] [start] [] := by
  constructor
  · exact List.nodup_nil
  · simp
  · simp
  · simp
  · simp
  · simpa using hs

/-- The six-node example graph of the round-trip scenario, with node
identities Start = 0, Fork = 1, A = 2, B = 3, Join = 4, End = 5: the start
links to the fork, the fork to A and B, A and B both to the join (two
inbound links converge on node 4), and the join to the end. -/
def exampleG : Nat → List Nat := fun n =>
  match n with
  | 0 => [1]
  | 1 => [2, 3]
  | 2 => [4]
  | 3 => [4]
  | 4 => [5]
  | _ => []

/-- C1: over any finite node universe V closed under the child function and
containing the start node, `collect_all_nodes` (run with fuel at least the
size of the universe, which covers every finite graph) produces a sequence
with no duplicate node identity whose members are exactly the nodes
reachable from the start via child-node links; and on the example graph
Start→Fork(A,B), A and B both to Join, Join→End it discovers exactly the
six nodes 0..5, each once, in breadth-first order [0, 1, 2, 3, 4, 5]. -/
theorem collect_all_nodes_correct (g : Nat → List Nat) (V : List Nat) (start x fuel : Nat)
    (hs : start ∈ V) (hcl : ∀ a ∈ V, ∀ b ∈ g a, b ∈ V)
    (hfuel : V.toFinset.card ≤ fuel) :
    (collect_all_nodes g fuel start).Nodup ∧
    (x ∈ collect_all_nodes g fuel start ↔ Reachable g start x) ∧
    collect_all_nodes exampleG 6 0 = [0, 1, 2, 3, 4, 5] := by
  have hInv := BfsInv_init g V start hs
  have hrem : remaining V [] ≤ fuel := by rw [remaining_nil]; exact hfuel
  have hspec := collectAux_spec g V hcl fuel [] [start] [] hInv hrem
  refine ⟨hspec.1, ⟨?_, ?_⟩, by decide⟩
  · intro hx
    refine collectAux_sound g (Reachable g start)
      (fun a b ha hb => Reachable.step ha hb) fuel [] [start] [] (by simp) ?_ x hx
    intro z hz
    have hzs : z = start := by simpa using hz
    exact hzs ▸ Reachable.refl
  · intro hr
    induction hr with
    | refl => exact hspec.2.2.1 start (by simp)
    | step _ hb ih => exact hspec.2.2.2 _ ih _ hb

/-- Witness for C1 on the six-node example graph (x = 4 is the join node,
on which two links converge). -/
theorem collect_all_nodes_correct_witness :
    (collect_all_nodes exampleG 6 0).Nodup ∧
    (4 ∈ collect_all_nodes exampleG 6 0 ↔ Reachable exampleG 0 4) ∧
    collect_all_nodes exampleG 6 0 = [0, 1, 2, 3, 4, 5] :=
  collect_all_nodes_correct exampleG [0, 1, 2, 3, 4, 5] 0 4 6
    (by decide) (by decide) (by decide)

/-- C9: `Workflow._collect_all_nodes` terminates on every finite graph: a
node is enqueued only when neither visited nor already enqueued and every
dequeued node is immediately marked visited, so the loop runs at most once
per reachable node — formally, the run is already complete at fuel equal to
the universe size (more fuel changes nothing), and the output length is
bounded by the universe size. -/
theorem collect_all_nodes_terminates (g : Nat → List Nat) (V : List Nat) (start fuel : Nat)
    (hs : start ∈ V) (hcl : ∀ a ∈ V, ∀ b ∈ g a, b ∈ V)
    (hfuel : V.toFinset.card ≤ fuel) :
    collect_all_nodes g fuel start = collect_all_nodes g V.toFinset.card start ∧
    (collect_all_nodes g fuel start).length ≤ V.toFinset.card := by
  have hInv := BfsInv_init g V start hs
  constructor
  · exact collectAux_fuel_indep g V hcl fuel V.toFinset.card [] [start] [] hInv
      (by rw [remaining_nil]; exact hfuel) (by rw [remaining_nil])
  · have h := collectAux_length g V hcl fuel [] [start] [] hInv
    simpa [remaining_nil] using h

/-- Witness for C9 on the six-node example graph. -/
theorem collect_all_nodes_terminates_witness :
    collect_all_nodes exampleG 6 0 =
      collect_all_nodes exampleG (([0, 1, 2, 3, 4, 5] : List Nat).toFinset.card) 0 ∧
    (collect_all_nodes exampleG 6 0).length ≤ ([0, 1, 2, 3, 4, 5] : List Nat).toFinset.card :=
  collect_all_nodes_terminates exampleG [0, 1, 2, 3, 4, 5] 0 6
    (by decide) (by decide) (by decide)

/-- Embeds the `Workflow` state: name, start node (by identity), the
parameter mapping (stored but never serialized by `to_xml` in the source),
and the mutable `self.nodes` list that `_collect_all_nodes` rewrites. -/
structure Workflow where
  name : String
  start : Nat
  parameters : List (String × String)
  nodes : List Nat

/-- Embeds the mutating method `Workflow._collect_all_nodes` as a state
transformer: it starts from `self.nodes = []`, so whatever the stored list
held before the call is discarded and recomputed from `self.start`. -/
def Workflow._collect_all_nodes (g : Nat → List Nat) (fuel : Nat) (w : Workflow) : Workflow :=
  ⟨w.name, w.start, w.parameters, collect_all_nodes g fuel w.start⟩

/-- Embeds `Workflow.to_xml` as a state-passing function (the Python method
mutates `self.nodes` before emitting): run discovery, then wrap each
discovered node's serialization, in discovery order, under the
workflow-app root.  Each node's own `to_xml` reads only that node, so it is
abstracted as a pure per-node function `nodeXml`. -/
def Workflow.to_xml (g : Nat → List Nat) (nodeXml : Nat → Xml) (fuel : Nat)
    (w : Workflow) : Workflow × Xml :=
  let w2 := Workflow._collect_all_nodes g fuel w
  (w2, appendEach
    (Xml.elem "workflow-app" [("name", w2.name), ("xmlns", "uri:oozie:workflow:0.4")] none [])
    nodeXml w2.nodes)

/-- Embeds `Workflow.to_string`: serialize the tree produced by `to_xml`
(same mutated state, rendered output). -/
def Workflow.to_string (g : Nat → List Nat) (nodeXml : Nat → Xml) (fuel : Nat)
    (w : Workflow) : Workflow × String :=
  let r := Workflow.to_xml g nodeXml fuel w
  (r.1, Xml.render r.2)

/-- C2: calling `Workflow.to_string` twice with the same arguments and no
mutation between the calls (the second call runs on the state left by the
first, which only rewrote the transient `nodes` list) returns byte-identical
output: serialization is a deterministic function of the graph, because
discovery starts from `self.nodes = []` each call and every embedded
structure is order-preserving. -/
theorem workflow_to_string_deterministic (g : Nat → List Nat) (nodeXml : Nat → Xml)
    (fuel : Nat) (w : Workflow) :
    (Workflow.to_string g nodeXml fuel ((Workflow.to_string g nodeXml fuel w).1)).2 =
      (Workflow.to_string g nodeXml fuel w).2 := rfl
